import Mathlib

/-!
Verification development for the `intl-rs` locale library.

The library exposes a `Locale` facade wrapping a structured BCP-47-style
language tag.  The tag grammar (parser, validator and canonicalizer) is the
documented external surface of the library; it is embedded here, together
with the `Locale` accessors (`base_name`, `language`, `script`, `region`,
the preference accessors) and the thread-scoped current-locale registry
(`current`, `autoupdating_current`, `set_current`, `Default`).

Strings are processed as their underlying `List Char`; the `String` type is
used only at the API boundary, mirroring the library's `&str` interface.
-/

namespace IntlRs

/-! ### ASCII character predicates and case mapping -/

/-- ASCII alphabetic test, as used by the tag grammar. -/
def isAsciiAlpha (c : Char) : Bool :=
  decide (65 ≤ c.toNat ∧ c.toNat ≤ 90) || decide (97 ≤ c.toNat ∧ c.toNat ≤ 122)

/-- ASCII digit test. -/
def isAsciiDigit (c : Char) : Bool :=
  decide (48 ≤ c.toNat ∧ c.toNat ≤ 57)

/-- ASCII alphanumeric test. -/
def isAsciiAlphanum (c : Char) : Bool :=
  isAsciiAlpha c || isAsciiDigit c

/-- ASCII lower-casing of a single character. -/
def lowerChar (c : Char) : Char :=
  if h : 65 ≤ c.toNat ∧ c.toNat ≤ 90 then
    Char.ofNatAux (c.toNat + 32) (Or.inl (by omega))
  else c

/-- ASCII upper-casing of a single character. -/
def upperChar (c : Char) : Char :=
  if h : 97 ≤ c.toNat ∧ c.toNat ≤ 122 then
    Char.ofNatAux (c.toNat - 32) (Or.inl (by omega))
  else c

/-! ### Subtags: splitting, joining, grammar classifiers

Modelled from the spec: the tag parser and validator live in the
`language_tags` dependency, outside this repository's sources; the grammar
below follows the spec's tag grammar surface (subtag separator `-`;
language 2-8 alphabetic; script exactly 4 alphabetic; region exactly
2 alphabetic or 3 numeric; variant 4 alphanumeric starting with a digit or
5-8 alphanumeric; extension singleton 1 alphanumeric other than `x`;
private-use singleton literally `x`; other subtags 1-8 alphanumeric).
-/

/-- A subtag, one `-`-separated segment of a tag string. -/
abbrev Subtag := List Char

/-- Split a character list on the `-` separator.  Always returns at least
one (possibly empty) segment, like splitting a string on a separator. -/
def splitDash : List Char → List Subtag
  | [] => [[]]
  | c :: cs =>
    if c = '-' then [] :: splitDash cs
    else
      match splitDash cs with
      | [] => [[c]]
      | t :: ts => (c :: t) :: ts

/-- Join subtags with the `-` separator. -/
def joinDash : List Subtag → List Char
  | [] => []
  | [p] => p
  | p :: ps => p ++ '-' :: joinDash ps

/-- Join subtags, prefixing each with the `-` separator. -/
def tailJoin (ps : List Subtag) : List Char :=
  ps.foldr (fun v acc => '-' :: (v ++ acc)) []

/-- Lower-case every character of a subtag. -/
def lowerAll (p : Subtag) : Subtag := p.map lowerChar

/-- Upper-case every character of a subtag (digits are unchanged). -/
def upperAll (p : Subtag) : Subtag := p.map upperChar

/-- Title-case a subtag: first character upper-cased, the rest lower-cased. -/
def titleCase : Subtag → Subtag
  | [] => []
  | c :: cs => upperChar c :: lowerAll cs

/-- The three characters of the reserved `und` (undetermined) language code. -/
def undChars : Subtag := ['u', 'n', 'd']

/-- Language subtag: 2-8 alphabetic characters. -/
def isLanguageSubtag (p : Subtag) : Bool :=
  decide (2 ≤ p.length) && decide (p.length ≤ 8) && p.all isAsciiAlpha

/-- Script subtag: exactly 4 alphabetic characters. -/
def isScriptSubtag (p : Subtag) : Bool :=
  decide (p.length = 4) && p.all isAsciiAlpha

/-- Region subtag: exactly 2 alphabetic or exactly 3 numeric characters. -/
def isRegionSubtag (p : Subtag) : Bool :=
  (decide (p.length = 2) && p.all isAsciiAlpha)
    || (decide (p.length = 3) && p.all isAsciiDigit)

/-- Does the subtag start with an ASCII digit? -/
def headIsDigit : Subtag → Bool
  | [] => false
  | c :: _ => isAsciiDigit c

/-- Variant subtag: 4 alphanumeric characters starting with a digit, or
5-8 alphanumeric characters. -/
def isVariantSubtag (p : Subtag) : Bool :=
  (decide (p.length = 4) && p.all isAsciiAlphanum && headIsDigit p)
    || (decide (5 ≤ p.length) && decide (p.length ≤ 8) && p.all isAsciiAlphanum)

/-- Extension or private-use payload subtag: 1-8 alphanumeric characters. -/
def isExtSubtag (p : Subtag) : Bool :=
  decide (1 ≤ p.length) && decide (p.length ≤ 8) && p.all isAsciiAlphanum

/-! ### The structured tag and its parser -/

/-- The structured BCP-47-style tag, as stored by the library's tag type:
optional language, script and region, ordered variants, extension blocks
keyed by their singleton character, and an optional private-use block. -/
structure Tag where
  language : Option Subtag
  script : Option Subtag
  region : Option Subtag
  variants : List Subtag
  extensions : List (Char × List Subtag)
  private_use : Option (List Subtag)
deriving DecidableEq

/-- Parse failure: the input string violates the tag grammar at some
subtag position.  It carries no partial result. -/
inductive ParseError
  | malformedTag
deriving DecidableEq

/-- Consume the optional language subtag.  The reserved code `und`
denotes an absent (undetermined) language. -/
def pLanguage : List Subtag → Option Subtag × List Subtag
  | [] => (none, [])
  | p :: rest =>
    if isLanguageSubtag p then
      if lowerAll p = undChars then (none, rest)
      else (some (lowerAll p), rest)
    else (none, p :: rest)

/-- Consume the optional script subtag, title-casing it. -/
def pScript : List Subtag → Option Subtag × List Subtag
  | [] => (none, [])
  | p :: rest =>
    if isScriptSubtag p then (some (titleCase p), rest) else (none, p :: rest)

/-- Consume the optional region subtag, upper-casing it. -/
def pRegion : List Subtag → Option Subtag × List Subtag
  | [] => (none, [])
  | p :: rest =>
    if isRegionSubtag p then (some (upperAll p), rest) else (none, p :: rest)

/-- Consume the variant subtags, lower-casing them and rejecting
duplicates. -/
def pVariants (acc : List Subtag) : List Subtag →
    Except ParseError (List Subtag × List Subtag)
  | [] => .ok (acc, [])
  | p :: rest =>
    if isVariantSubtag p then
      if lowerAll p ∈ acc then .error .malformedTag
      else pVariants (acc ++ [lowerAll p]) rest
    else .ok (acc, p :: rest)

/-- Close the currently open extension block, rejecting a block with no
subtags (an extension must carry at least one subtag). -/
def closeBlock (acc : List (Char × List Subtag)) :
    Option (Char × List Subtag) → Except ParseError (List (Char × List Subtag))
  | none => .ok acc
  | some (c, subs) =>
    if subs.isEmpty then .error .malformedTag else .ok (acc ++ [(c, subs)])

/-- Consume the extension blocks and the optional trailing private-use
block.  A singleton (1-character alphanumeric subtag) opens a new block;
a repeated singleton is rejected; the singleton `x` starts the private-use
block, which must absorb all remaining subtags. -/
def pExtensions (acc : List (Char × List Subtag))
    (cur : Option (Char × List Subtag)) : List Subtag →
    Except ParseError (List (Char × List Subtag) × Option (List Subtag))
  | [] =>
    match closeBlock acc cur with
    | .error e => .error e
    | .ok closed => .ok (closed, none)
  | p :: rest =>
    match p with
    | [c] =>
      if isAsciiAlphanum c then
        if lowerChar c = 'x' then
          match closeBlock acc cur with
          | .error e => .error e
          | .ok closed =>
            if rest.isEmpty then .error .malformedTag
            else if rest.all isExtSubtag then .ok (closed, some (rest.map lowerAll))
            else .error .malformedTag
        else
          match closeBlock acc cur with
          | .error e => .error e
          | .ok closed =>
            if closed.any (fun e => e.1 = lowerChar c) then .error .malformedTag
            else pExtensions closed (some (lowerChar c, [])) rest
      else .error .malformedTag
    | _ =>
      if isExtSubtag p then
        match cur with
        | none => .error .malformedTag
        | some (c, subs) => pExtensions acc (some (c, subs ++ [lowerAll p])) rest
      else .error .malformedTag

/-- Modelled from the spec: the tag parser lives in the `language_tags`
dependency, not in this repository's sources.  Run the spec's grammar over
a list of subtags, in strict order: language, script, region, variants,
extensions, private use. -/
def parseSubtags (parts : List Subtag) : Except ParseError Tag :=
  match pLanguage parts with
  | (lang, r1) =>
    match pScript r1 with
    | (scr, r2) =>
      match pRegion r2 with
      | (reg, r3) =>
        match pVariants [] r3 with
        | .error e => .error e
        | .ok (vars, r4) =>
          match pExtensions [] none r4 with
          | .error e => .error e
          | .ok (exts, pu) =>
            .ok { language := lang, script := scr, region := reg,
                  variants := vars, extensions := exts, private_use := pu }

/-- Modelled from the spec: parse a tag string by splitting on `-` and
running the grammar; the real parser is the `language_tags` dependency,
not in this repository's sources. -/
def parseTag (s : String) : Except ParseError Tag :=
  parseSubtags (splitDash s.data)

/-! ### The Locale facade (src/locale.rs) -/

/-- A `Locale` owns exactly one validated tag (`pub struct Locale { tag: LanguageTag }`). -/
structure Locale where
  tag : Tag
deriving DecidableEq

/-- Runtime failure of a `Locale` operation in the source: `unimplemented!()`
(the stubbed preference accessors) or a panicking `unwrap()`. -/
inductive RtError
  | unimplemented
  | panicked
deriving DecidableEq

/-- `Locale::new`: parse the string and wrap the tag; a parse failure is
propagated unchanged. -/
def Locale.new (s : String) : Except ParseError Locale :=
  match parseTag s with
  | .error e => .error e
  | .ok tag => .ok { tag := tag }

/-- Append `"-"` then a subtag, as the `push_str` pairs in `base_name` do. -/
def appendSub (out : List Char) (v : Subtag) : List Char := out ++ '-' :: v

/-- `Locale::base_name`: `None` when the language is absent, otherwise the
language followed by `-script`, `-region` (each when present) and `-variant`
for every variant in order. -/
def Locale.base_name (l : Locale) : Option String :=
  match l.tag.language with
  | none => none
  | some lang =>
    let afterScript :=
      match l.tag.script with
      | some v => appendSub lang v
      | none => lang
    let afterRegion :=
      match l.tag.region with
      | some v => appendSub afterScript v
      | none => afterScript
    some (String.mk (l.tag.variants.foldl appendSub afterRegion))

/-- `Locale::calendar`: `unimplemented!()`. -/
def Locale.calendar (_ : Locale) : Except RtError String := .error .unimplemented

/-- `Locale::collation`: `unimplemented!()`. -/
def Locale.collation (_ : Locale) : Except RtError String := .error .unimplemented

/-- `Locale::hour_cycle`: `unimplemented!()`. -/
def Locale.hour_cycle (_ : Locale) : Except RtError String := .error .unimplemented

/-- `Locale::case_first`: `unimplemented!()`. -/
def Locale.case_first (_ : Locale) : Except RtError String := .error .unimplemented

/-- `Locale::numeric`: `unimplemented!()`. -/
def Locale.numeric (_ : Locale) : Except RtError String := .error .unimplemented

/-- `Locale::numbering_system`: `unimplemented!()`. -/
def Locale.numbering_system (_ : Locale) : Except RtError String := .error .unimplemented

/-- `Locale::language`: the tag's language subtag, when present. -/
def Locale.language (l : Locale) : Option String := l.tag.language.map String.mk

/-- `Locale::script`: the tag's script subtag, when present. -/
def Locale.script (l : Locale) : Option String := l.tag.script.map String.mk

/-- `Locale::region`: the tag's region subtag, when present. -/
def Locale.region (l : Locale) : Option String := l.tag.region.map String.mk

/-! ### The current-locale registry and the platform collaborator -/

/-- Outcome of the platform default-locale collaborator: a raw locale
string, or a lookup failure. -/
inductive PlatformResult
  | ok (s : String)
  | err
deriving DecidableEq

/-- The sentinel undetermined tag: everything absent. -/
def undTag : Tag :=
  { language := none, script := none, region := none,
    variants := [], extensions := [], private_use := none }

/-- The sentinel undetermined locale. -/
def undLocale : Locale := { tag := undTag }

/-- `impl Default for Locale`, as a function of the platform collaborator's
outcome: use the platform string when it parses, otherwise fall back to
parsing the literal `"und"`, whose `unwrap()` is modelled by `.panicked`. -/
def Locale.defaultFrom (pr : PlatformResult) : Except RtError Locale :=
  match pr with
  | .ok v =>
    match parseTag v with
    | .ok tag => .ok { tag := tag }
    | .error _ =>
      match parseTag "und" with
      | .ok tag => .ok { tag := tag }
      | .error _ => .error .panicked
  | .err =>
    match parseTag "und" with
    | .ok tag => .ok { tag := tag }
    | .error _ => .error .panicked

/-- The per-thread current-locale cell (`CURRENT_LOCALE`): it holds exactly
one locale at a time. -/
structure RegistryState where
  current_locale : Locale
deriving DecidableEq

/-- Lazy first initialization of the thread's cell, from the platform
collaborator's outcome. -/
def initRegistry (pr : PlatformResult) : Except RtError RegistryState :=
  (Locale.defaultFrom pr).map RegistryState.mk

/-- A live handle handed out by `Locale::autoupdating_current`: an `Rc`
clone of the thread's one cell, so every handle aliases that cell. -/
inductive Handle
  | currentCell
deriving DecidableEq

/-- `Locale::autoupdating_current`: hand out a live handle to the cell. -/
def Locale.autoupdating_current (_ : RegistryState) : Handle := .currentCell

/-- Reading through a live handle: a borrow of the cell the handle aliases. -/
def readHandle (st : RegistryState) : Handle → Locale
  | .currentCell => st.current_locale

/-- `Locale::current`: an owned snapshot (clone) of the cell's locale. -/
def Locale.current (st : RegistryState) : Locale := st.current_locale

/-- `Locale::set_current`: replace the cell's locale with a new one. -/
def Locale.set_current (_ : RegistryState) (new_locale : Locale) : RegistryState :=
  { current_locale := new_locale }

/-! ### Extension keyword extraction

Modelled from the spec: the derived `ExtensionKeywordMap` (the value behind
the preference accessors) is not implemented in this repository's sources;
the spec defines it as the re-segmentation of the `u` extension block's
subtags into key-value groups, where a key is exactly 2 alphanumeric
characters and a value is the maximal run of following subtags that are not
themselves 2-character keys, joined with `-`.
-/

/-- Modelled from the spec: is the subtag a 2-character keyword key? -/
def isUKey (p : Subtag) : Bool :=
  decide (p.length = 2) && p.all isAsciiAlphanum

/-- Modelled from the spec: re-segment an extension block's subtags into
keyword groups, carrying the currently open group; the keyword map is not
implemented in this repository's sources. -/
def keywordGroupsAux (cur : Option (Subtag × List Subtag)) :
    List Subtag → List (Subtag × List Subtag)
  | [] => cur.toList
  | p :: rest =>
    if isUKey p then cur.toList ++ keywordGroupsAux (some (p, [])) rest
    else
      match cur with
      | none => keywordGroupsAux none rest
      | some (k, vs) => keywordGroupsAux (some (k, vs ++ [p])) rest

/-- Modelled from the spec: the keyword groups of an extension block's
subtag sequence. -/
def keywordGroups (subs : List Subtag) : List (Subtag × List Subtag) :=
  keywordGroupsAux none subs

/-- Modelled from the spec: look up a 2-character key in the tag's `u`
extension block, returning the value run joined with `-`, or `none` when
the key or the block is absent. -/
def ukeywordValue (t : Tag) (key : String) : Option String :=
  match t.extensions.find? (fun e => e.1 = 'u') with
  | none => none
  | some (_, subs) =>
    ((keywordGroups subs).find? (fun g => g.1 = key.data)).map
      (fun g => String.mk (joinDash g.2))

/-! ### Invariants established by the parser -/

/-- A normalized language subtag, as stored in a parsed tag. -/
def IsNormLang (l : Subtag) : Prop :=
  isLanguageSubtag l = true ∧ lowerAll l = l ∧ l ≠ undChars

/-- A normalized script subtag, as stored in a parsed tag. -/
def IsNormScript (s : Subtag) : Prop :=
  isScriptSubtag s = true ∧ titleCase s = s

/-- A normalized region subtag, as stored in a parsed tag. -/
def IsNormRegion (r : Subtag) : Prop :=
  isRegionSubtag r = true ∧ upperAll r = r

/-- A normalized variant subtag, as stored in a parsed tag. -/
def IsNormVariant (v : Subtag) : Prop :=
  isVariantSubtag v = true ∧ lowerAll v = v

/-- The structural invariants a successful parse establishes on the tag. -/
structure WfTag (t : Tag) : Prop where
  lang : ∀ l, t.language = some l → IsNormLang l
  scr : ∀ s, t.script = some s → IsNormScript s
  reg : ∀ r, t.region = some r → IsNormRegion r
  vars : ∀ v, v ∈ t.variants → IsNormVariant v
  varsNodup : t.variants.Nodup
  extsNodup : (t.extensions.map Prod.fst).Nodup

/-! ### Theorems -/

theorem toNat_ofNatAux (n : Nat) (h : n.isValidChar) :
    (Char.ofNatAux n h).toNat = n := rfl

theorem toNat_lowerChar (c : Char) :
    (lowerChar c).toNat =
      if 65 ≤ c.toNat ∧ c.toNat ≤ 90 then c.toNat + 32 else c.toNat := by
  unfold lowerChar
  split <;> simp_all [toNat_ofNatAux]

theorem toNat_upperChar (c : Char) :
    (upperChar c).toNat =
      if 97 ≤ c.toNat ∧ c.toNat ≤ 122 then c.toNat - 32 else c.toNat := by
  unfold upperChar
  split <;> simp_all [toNat_ofNatAux]

theorem char_eq_of_toNat_eq {a b : Char} (h : a.toNat = b.toNat) : a = b :=
  Char.eq_of_val_eq (UInt32.ext h)

theorem lowerChar_lowerChar (c : Char) : lowerChar (lowerChar c) = lowerChar c := by
  apply char_eq_of_toNat_eq
  simp only [toNat_lowerChar]
  by_cases h : 65 ≤ c.toNat ∧ c.toNat ≤ 90
  · simp only [if_pos h]
    rw [if_neg (by omega)]
  · simp only [if_neg h]

theorem upperChar_upperChar (c : Char) : upperChar (upperChar c) = upperChar c := by
  apply char_eq_of_toNat_eq
  simp only [toNat_upperChar]
  by_cases h : 97 ≤ c.toNat ∧ c.toNat ≤ 122
  · simp only [if_pos h]
    rw [if_neg (by omega)]
  · simp only [if_neg h]

theorem isAsciiAlpha_lowerChar (c : Char) :
    isAsciiAlpha (lowerChar c) = isAsciiAlpha c := by
  simp only [isAsciiAlpha, toNat_lowerChar]
  by_cases h : 65 ≤ c.toNat ∧ c.toNat ≤ 90
  · rw [if_pos h]
    have h1 : ¬(65 ≤ c.toNat + 32 ∧ c.toNat + 32 ≤ 90) := by omega
    have h2 : 97 ≤ c.toNat + 32 ∧ c.toNat + 32 ≤ 122 := by omega
    have h3 : ¬(97 ≤ c.toNat ∧ c.toNat ≤ 122) := by omega
    simp [h, h1, h2, h3]
  · rw [if_neg h]

theorem isAsciiAlpha_upperChar (c : Char) :
    isAsciiAlpha (upperChar c) = isAsciiAlpha c := by
  simp only [isAsciiAlpha, toNat_upperChar]
  by_cases h : 97 ≤ c.toNat ∧ c.toNat ≤ 122
  · rw [if_pos h]
    have h1 : 65 ≤ c.toNat - 32 ∧ c.toNat - 32 ≤ 90 := by omega
    have h2 : ¬(97 ≤ c.toNat - 32 ∧ c.toNat - 32 ≤ 122) := by omega
    have h3 : ¬(65 ≤ c.toNat ∧ c.toNat ≤ 90) := by omega
    simp [h, h1, h2, h3]
  · rw [if_neg h]

theorem isAsciiDigit_lowerChar (c : Char) :
    isAsciiDigit (lowerChar c) = isAsciiDigit c := by
  simp only [isAsciiDigit, toNat_lowerChar]
  by_cases h : 65 ≤ c.toNat ∧ c.toNat ≤ 90
  · rw [if_pos h]
    have h1 : ¬(48 ≤ c.toNat + 32 ∧ c.toNat + 32 ≤ 57) := by omega
    have h2 : ¬(48 ≤ c.toNat ∧ c.toNat ≤ 57) := by omega
    simp only [decide_eq_decide]
    omega
  · rw [if_neg h]

theorem isAsciiDigit_upperChar (c : Char) :
    isAsciiDigit (upperChar c) = isAsciiDigit c := by
  simp only [isAsciiDigit, toNat_upperChar]
  by_cases h : 97 ≤ c.toNat ∧ c.toNat ≤ 122
  · rw [if_pos h]
    have h1 : ¬(48 ≤ c.toNat - 32 ∧ c.toNat - 32 ≤ 57) := by omega
    have h2 : ¬(48 ≤ c.toNat ∧ c.toNat ≤ 57) := by omega
    simp only [decide_eq_decide]
    omega
  · rw [if_neg h]

theorem isAsciiAlphanum_lowerChar (c : Char) :
    isAsciiAlphanum (lowerChar c) = isAsciiAlphanum c := by
  simp [isAsciiAlphanum, isAsciiAlpha_lowerChar, isAsciiDigit_lowerChar]

theorem isAsciiAlphanum_upperChar (c : Char) :
    isAsciiAlphanum (upperChar c) = isAsciiAlphanum c := by
  simp [isAsciiAlphanum, isAsciiAlpha_upperChar, isAsciiDigit_upperChar]

theorem not_dash_of_isAsciiAlphanum {c : Char} (h : isAsciiAlphanum c = true) :
    c ≠ '-' := by
  intro he
  subst he
  simp [isAsciiAlphanum, isAsciiAlpha, isAsciiDigit] at h

/-! ### Normalization lemmas on subtags -/

theorem lowerAll_cons (c : Char) (cs : List Char) :
    lowerAll (c :: cs) = lowerChar c :: lowerAll cs := rfl

theorem upperAll_cons (c : Char) (cs : List Char) :
    upperAll (c :: cs) = upperChar c :: upperAll cs := rfl

theorem lowerAll_length (p : Subtag) : (lowerAll p).length = p.length := by
  simp [lowerAll]

theorem upperAll_length (p : Subtag) : (upperAll p).length = p.length := by
  simp [upperAll]

theorem titleCase_length (p : Subtag) : (titleCase p).length = p.length := by
  cases p with
  | nil => rfl
  | cons c cs => simp [titleCase, lowerAll]

theorem lowerAll_lowerAll (p : Subtag) : lowerAll (lowerAll p) = lowerAll p := by
  induction p with
  | nil => rfl
  | cons c cs ih => rw [lowerAll_cons, lowerAll_cons, lowerChar_lowerChar, ih]

theorem upperAll_upperAll (p : Subtag) : upperAll (upperAll p) = upperAll p := by
  induction p with
  | nil => rfl
  | cons c cs ih => rw [upperAll_cons, upperAll_cons, upperChar_upperChar, ih]

theorem titleCase_titleCase (p : Subtag) : titleCase (titleCase p) = titleCase p := by
  cases p with
  | nil => rfl
  | cons c cs => rw [titleCase, titleCase, upperChar_upperChar, lowerAll_lowerAll]

theorem all_alpha_lowerAll (p : Subtag) :
    (lowerAll p).all isAsciiAlpha = p.all isAsciiAlpha := by
  induction p with
  | nil => rfl
  | cons c cs ih =>
    rw [lowerAll_cons, List.all_cons, List.all_cons, isAsciiAlpha_lowerChar, ih]

theorem all_alpha_upperAll (p : Subtag) :
    (upperAll p).all isAsciiAlpha = p.all isAsciiAlpha := by
  induction p with
  | nil => rfl
  | cons c cs ih =>
    rw [upperAll_cons, List.all_cons, List.all_cons, isAsciiAlpha_upperChar, ih]

theorem all_digit_upperAll (p : Subtag) :
    (upperAll p).all isAsciiDigit = p.all isAsciiDigit := by
  induction p with
  | nil => rfl
  | cons c cs ih =>
    rw [upperAll_cons, List.all_cons, List.all_cons, isAsciiDigit_upperChar, ih]

theorem all_alphanum_lowerAll (p : Subtag) :
    (lowerAll p).all isAsciiAlphanum = p.all isAsciiAlphanum := by
  induction p with
  | nil => rfl
  | cons c cs ih =>
    rw [lowerAll_cons, List.all_cons, List.all_cons, isAsciiAlphanum_lowerChar, ih]

theorem all_alpha_titleCase (p : Subtag) :
    (titleCase p).all isAsciiAlpha = p.all isAsciiAlpha := by
  cases p with
  | nil => rfl
  | cons c cs =>
    rw [titleCase, List.all_cons, List.all_cons, isAsciiAlpha_upperChar,
      all_alpha_lowerAll]

theorem headIsDigit_lowerAll (p : Subtag) :
    headIsDigit (lowerAll p) = headIsDigit p := by
  cases p with
  | nil => rfl
  | cons c cs => rw [lowerAll_cons, headIsDigit, headIsDigit, isAsciiDigit_lowerChar]

theorem isLanguageSubtag_lowerAll (p : Subtag) :
    isLanguageSubtag (lowerAll p) = isLanguageSubtag p := by
  rw [isLanguageSubtag, isLanguageSubtag, lowerAll_length, all_alpha_lowerAll]

theorem isScriptSubtag_titleCase (p : Subtag) :
    isScriptSubtag (titleCase p) = isScriptSubtag p := by
  rw [isScriptSubtag, isScriptSubtag, titleCase_length, all_alpha_titleCase]

theorem isRegionSubtag_upperAll (p : Subtag) :
    isRegionSubtag (upperAll p) = isRegionSubtag p := by
  rw [isRegionSubtag, isRegionSubtag, upperAll_length, all_alpha_upperAll,
    all_digit_upperAll]

theorem isVariantSubtag_lowerAll (p : Subtag) :
    isVariantSubtag (lowerAll p) = isVariantSubtag p := by
  rw [isVariantSubtag, isVariantSubtag, lowerAll_length, all_alphanum_lowerAll,
    headIsDigit_lowerAll]

theorem alphanum_of_alpha {c : Char} (h : isAsciiAlpha c = true) :
    isAsciiAlphanum c = true := by
  rw [isAsciiAlphanum, h, Bool.true_or]

theorem all_alphanum_of_all_alpha {p : Subtag} (h : p.all isAsciiAlpha = true) :
    p.all isAsciiAlphanum = true := by
  rw [List.all_eq_true] at h ⊢
  exact fun c hc => alphanum_of_alpha (h c hc)

theorem no_dash_of_all_alphanum {p : Subtag} (h : p.all isAsciiAlphanum = true) :
    ∀ c ∈ p, c ≠ '-' := by
  rw [List.all_eq_true] at h
  exact fun c hc => not_dash_of_isAsciiAlphanum (h c hc)

/-! ### Joining and splitting are inverse on dash-free subtags -/

theorem tailJoin_cons (p : Subtag) (ps : List Subtag) :
    tailJoin (p :: ps) = '-' :: (p ++ tailJoin ps) := rfl

theorem tailJoin_append (a b : List Subtag) :
    tailJoin (a ++ b) = tailJoin a ++ tailJoin b := by
  induction a with
  | nil => rfl
  | cons p ps ih => simp [tailJoin_cons, ih]

theorem joinDash_cons (p : Subtag) (ps : List Subtag) :
    joinDash (p :: ps) = p ++ tailJoin ps := by
  induction ps generalizing p with
  | nil => simp [joinDash, tailJoin]
  | cons q qs ih =>
    rw [show joinDash (p :: q :: qs) = p ++ '-' :: joinDash (q :: qs) from rfl]
    rw [ih q, tailJoin_cons]

theorem splitDash_ne_nil (cs : List Char) : splitDash cs ≠ [] := by
  cases cs with
  | nil => simp [splitDash]
  | cons c cs =>
    rw [splitDash]
    split
    · simp
    · cases h : splitDash cs <;> simp

theorem splitDash_no_dash (p : List Char) (hp : ∀ c ∈ p, c ≠ '-') :
    splitDash p = [p] := by
  induction p with
  | nil => rfl
  | cons c cs ih =>
    rw [splitDash, if_neg (hp c (by simp))]
    rw [ih (fun d hd => hp d (by simp [hd]))]

theorem splitDash_append_dash (p : List Char) (hp : ∀ c ∈ p, c ≠ '-')
    (cs : List Char) : splitDash (p ++ '-' :: cs) = p :: splitDash cs := by
  induction p with
  | nil => simp [splitDash]
  | cons c p' ih =>
    rw [List.cons_append, splitDash, if_neg (hp c (by simp))]
    rw [ih (fun d hd => hp d (by simp [hd]))]

theorem splitDash_joinDash (p : Subtag) (ps : List Subtag)
    (h : ∀ q ∈ p :: ps, ∀ c ∈ q, c ≠ '-') :
    splitDash (joinDash (p :: ps)) = p :: ps := by
  induction ps generalizing p with
  | nil =>
    rw [joinDash_cons]
    simp only [tailJoin, List.foldr_nil, List.append_nil]
    exact splitDash_no_dash p (h p (by simp))
  | cons q qs ih =>
    rw [show joinDash (p :: q :: qs) = p ++ '-' :: joinDash (q :: qs) from rfl]
    rw [splitDash_append_dash p (h p (by simp))]
    rw [ih q (fun r hr => h r (by simp at hr ⊢; tauto))]

/-! ### Characterizing base_name as a join -/

theorem foldl_appendSub (vs : List Subtag) (out : List Char) :
    vs.foldl appendSub out = out ++ tailJoin vs := by
  induction vs generalizing out with
  | nil => simp [tailJoin]
  | cons v vs ih =>
    rw [List.foldl_cons, ih, tailJoin_cons, appendSub]
    simp

theorem base_name_eq_joinDash (l : Locale) (lang : Subtag)
    (hl : l.tag.language = some lang) :
    l.base_name = some (String.mk (joinDash
      (lang :: (l.tag.script.toList ++ l.tag.region.toList ++ l.tag.variants)))) := by
  rw [Locale.base_name, hl]
  cases hs : l.tag.script with
  | none =>
    cases hr : l.tag.region with
    | none =>
      simp only [Option.toList_none, List.nil_append]
      rw [foldl_appendSub, joinDash_cons]
    | some r =>
      simp only [Option.toList_none, Option.toList_some, List.nil_append]
      rw [foldl_appendSub, joinDash_cons, appendSub]
      simp [tailJoin_cons]
  | some s =>
    cases hr : l.tag.region with
    | none =>
      simp only [Option.toList_none, Option.toList_some, List.append_nil]
      rw [foldl_appendSub, joinDash_cons, appendSub]
      simp [tailJoin_cons, tailJoin_append]
    | some r =>
      simp only [Option.toList_some]
      rw [foldl_appendSub, joinDash_cons, appendSub, appendSub]
      simp [tailJoin_cons, tailJoin_append]

theorem base_name_none_iff (l : Locale) :
    l.base_name = none ↔ l.tag.language = none := by
  cases hl : l.tag.language with
  | none => simp [Locale.base_name, hl]
  | some lang => simp [base_name_eq_joinDash l lang hl]

theorem pLanguage_norm {parts : List Subtag} {l : Subtag} {rest : List Subtag}
    (h : pLanguage parts = (some l, rest)) : IsNormLang l := by
  match parts with
  | [] => simp [pLanguage] at h
  | p :: ps =>
    rw [pLanguage] at h
    by_cases h1 : isLanguageSubtag p
    · rw [if_pos h1] at h
      by_cases h2 : lowerAll p = undChars
      · rw [if_pos h2] at h
        simp at h
      · rw [if_neg h2] at h
        simp only [Prod.mk.injEq, Option.some.injEq] at h
        obtain ⟨h3, -⟩ := h
        subst h3
        exact ⟨by rw [isLanguageSubtag_lowerAll]; exact h1, lowerAll_lowerAll p, h2⟩
    · rw [if_neg h1] at h
      simp at h

theorem pScript_norm {parts : List Subtag} {s : Subtag} {rest : List Subtag}
    (h : pScript parts = (some s, rest)) : IsNormScript s := by
  match parts with
  | [] => simp [pScript] at h
  | p :: ps =>
    rw [pScript] at h
    by_cases h1 : isScriptSubtag p
    · rw [if_pos h1] at h
      simp only [Prod.mk.injEq, Option.some.injEq] at h
      obtain ⟨h3, -⟩ := h
      subst h3
      exact ⟨by rw [isScriptSubtag_titleCase]; exact h1, titleCase_titleCase p⟩
    · rw [if_neg h1] at h
      simp at h

theorem pRegion_norm {parts : List Subtag} {r : Subtag} {rest : List Subtag}
    (h : pRegion parts = (some r, rest)) : IsNormRegion r := by
  match parts with
  | [] => simp [pRegion] at h
  | p :: ps =>
    rw [pRegion] at h
    by_cases h1 : isRegionSubtag p
    · rw [if_pos h1] at h
      simp only [Prod.mk.injEq, Option.some.injEq] at h
      obtain ⟨h3, -⟩ := h
      subst h3
      exact ⟨by rw [isRegionSubtag_upperAll]; exact h1, upperAll_upperAll p⟩
    · rw [if_neg h1] at h
      simp at h

theorem pVariants_norm : ∀ {parts acc vs rest},
    pVariants acc parts = .ok (vs, rest) →
    (∀ v ∈ acc, IsNormVariant v) → acc.Nodup →
    (∀ v ∈ vs, IsNormVariant v) ∧ vs.Nodup := by
  intro parts
  induction parts with
  | nil =>
    intro acc vs rest h hacc hnd
    rw [pVariants] at h
    simp only [Except.ok.injEq, Prod.mk.injEq] at h
    obtain ⟨h1, -⟩ := h
    subst h1
    exact ⟨hacc, hnd⟩
  | cons p ps ih =>
    intro acc vs rest h hacc hnd
    rw [pVariants] at h
    by_cases h1 : isVariantSubtag p
    · rw [if_pos h1] at h
      by_cases h2 : lowerAll p ∈ acc
      · rw [if_pos h2] at h
        simp at h
      · rw [if_neg h2] at h
        refine ih h ?_ ?_
        · intro v hv
          rcases List.mem_append.mp hv with hv | hv
          · exact hacc v hv
          · rw [List.mem_singleton] at hv
            subst hv
            exact ⟨by rw [isVariantSubtag_lowerAll]; exact h1, lowerAll_lowerAll p⟩
        · exact List.Nodup.append hnd (List.nodup_singleton _)
            (by simp [List.disjoint_left, h2])
    · rw [if_neg h1] at h
      simp only [Except.ok.injEq, Prod.mk.injEq] at h
      obtain ⟨h3, -⟩ := h
      subst h3
      exact ⟨hacc, hnd⟩

theorem closeBlock_nodup {acc : List (Char × List Subtag)}
    {cur : Option (Char × List Subtag)} {closed : List (Char × List Subtag)}
    (h : closeBlock acc cur = .ok closed)
    (h1 : (acc.map Prod.fst).Nodup)
    (h2 : ∀ c subs, cur = some (c, subs) → c ∉ acc.map Prod.fst) :
    (closed.map Prod.fst).Nodup := by
  match cur with
  | none =>
    rw [closeBlock] at h
    simp only [Except.ok.injEq] at h
    subst h
    exact h1
  | some (c, subs) =>
    rw [closeBlock] at h
    by_cases h3 : subs.isEmpty
    · rw [if_pos h3] at h
      simp at h
    · rw [if_neg h3] at h
      simp only [Except.ok.injEq] at h
      subst h
      rw [List.map_append]
      refine List.Nodup.append h1 (by simp) ?_
      intro a ha hb
      rw [show List.map Prod.fst [(c, subs)] = [c] from rfl,
        List.mem_singleton] at hb
      exact h2 c subs rfl (hb ▸ ha)

theorem pExtensions_cons_nil (acc : List (Char × List Subtag))
    (cur : Option (Char × List Subtag)) (ps : List Subtag) :
    pExtensions acc cur (([] : List Char) :: ps) = .error .malformedTag := rfl

theorem pExtensions_cons_singleton (acc : List (Char × List Subtag))
    (cur : Option (Char × List Subtag)) (c : Char) (ps : List Subtag) :
    pExtensions acc cur ([c] :: ps) =
      if isAsciiAlphanum c then
        if lowerChar c = 'x' then
          match closeBlock acc cur with
          | .error e => .error e
          | .ok closed =>
            if ps.isEmpty then .error .malformedTag
            else if ps.all isExtSubtag then .ok (closed, some (ps.map lowerAll))
            else .error .malformedTag
        else
          match closeBlock acc cur with
          | .error e => .error e
          | .ok closed =>
            if closed.any (fun e => e.1 = lowerChar c) then .error .malformedTag
            else pExtensions closed (some (lowerChar c, [])) ps
      else .error .malformedTag := rfl

theorem pExtensions_cons_long (acc : List (Char × List Subtag))
    (cur : Option (Char × List Subtag)) (c1 c2 : Char) (cs : List Char)
    (ps : List Subtag) :
    pExtensions acc cur ((c1 :: c2 :: cs) :: ps) =
      if isExtSubtag (c1 :: c2 :: cs) then
        match cur with
        | none => .error .malformedTag
        | some (c, subs) =>
          pExtensions acc (some (c, subs ++ [lowerAll (c1 :: c2 :: cs)])) ps
      else .error .malformedTag := rfl

theorem pExtensions_nodup : ∀ {parts acc cur exts pu},
    pExtensions acc cur parts = .ok (exts, pu) →
    (acc.map Prod.fst).Nodup →
    (∀ c subs, cur = some (c, subs) → c ∉ acc.map Prod.fst) →
    (exts.map Prod.fst).Nodup := by
  intro parts
  induction parts with
  | nil =>
    intro acc cur exts pu h h1 h2
    rw [pExtensions] at h
    cases hc : closeBlock acc cur with
    | error e =>
      rw [hc] at h
      simp at h
    | ok closed =>
      rw [hc] at h
      simp only [Except.ok.injEq, Prod.mk.injEq] at h
      obtain ⟨h3, -⟩ := h
      subst h3
      exact closeBlock_nodup hc h1 h2
  | cons p ps ih =>
    intro acc cur exts pu h h1 h2
    match p with
    | ([] : List Char) =>
      rw [pExtensions_cons_nil] at h
      simp at h
    | [c] =>
      rw [pExtensions_cons_singleton] at h
      by_cases h3 : isAsciiAlphanum c
      · rw [if_pos h3] at h
        by_cases h4 : lowerChar c = 'x'
        · rw [if_pos h4] at h
          split at h
          · simp at h
          · rename_i closed hc
            by_cases h5 : ps.isEmpty
            · rw [if_pos h5] at h
              simp at h
            · rw [if_neg h5] at h
              by_cases h6 : ps.all isExtSubtag
              · rw [if_pos h6] at h
                simp only [Except.ok.injEq, Prod.mk.injEq] at h
                obtain ⟨h7, -⟩ := h
                subst h7
                exact closeBlock_nodup hc h1 h2
              · rw [if_neg h6] at h
                simp at h
        · rw [if_neg h4] at h
          split at h
          · simp at h
          · rename_i closed hc
            by_cases h5 : closed.any (fun e => e.1 = lowerChar c)
            · rw [if_pos h5] at h
              simp at h
            · rw [if_neg h5] at h
              refine ih h (closeBlock_nodup hc h1 h2) ?_
              intro c' subs' hcur
              simp only [Option.some.injEq, Prod.mk.injEq] at hcur
              obtain ⟨hc', -⟩ := hcur
              subst hc'
              simp only [List.any_eq_true, not_exists, not_and] at h5
              intro hmem
              rw [List.mem_map] at hmem
              obtain ⟨e, he, hke⟩ := hmem
              have h7 := h5 e he
              rw [hke] at h7
              simp at h7
      · rw [if_neg h3] at h
        simp at h
    | (c1 :: c2 :: cs : List Char) =>
      rw [pExtensions_cons_long] at h
      by_cases h3 : isExtSubtag (c1 :: c2 :: cs)
      · rw [if_pos h3] at h
        match cur with
        | none => simp at h
        | some (c, subs) =>
          exact ih h h1 (by
            intro c' subs' hcur
            simp only [Option.some.injEq, Prod.mk.injEq] at hcur
            obtain ⟨hc', -⟩ := hcur
            subst hc'
            exact h2 c subs rfl)
      · rw [if_neg h3] at h
        simp at h

theorem parseSubtags_wf {parts : List Subtag} {t : Tag}
    (h : parseSubtags parts = .ok t) : WfTag t := by
  rw [parseSubtags] at h
  split at h
  rename_i lang r1 hL
  split at h
  rename_i scr r2 hS
  split at h
  rename_i reg r3 hR
  split at h
  · simp at h
  · rename_i vars r4 hV
    split at h
    · simp at h
    · rename_i exts pu hE
      simp only [Except.ok.injEq] at h
      subst h
      have hvar := pVariants_norm hV (by simp) List.nodup_nil
      refine ⟨?_, ?_, ?_, ?_, ?_, ?_⟩
      · intro l hl
        have hl2 : lang = some l := hl
        rw [hl2] at hL
        exact pLanguage_norm hL
      · intro s hs
        have hs2 : scr = some s := hs
        rw [hs2] at hS
        exact pScript_norm hS
      · intro r hr
        have hr2 : reg = some r := hr
        rw [hr2] at hR
        exact pRegion_norm hR
      · exact hvar.1
      · exact hvar.2
      · exact pExtensions_nodup hE (by simp) (by simp)

/-! ### The parser accepts its own canonical output -/

theorem pLanguage_accepts {l : Subtag} (h : IsNormLang l) (rest : List Subtag) :
    pLanguage (l :: rest) = (some l, rest) := by
  rw [pLanguage, if_pos h.1, h.2.1, if_neg h.2.2]

theorem pScript_accepts {s : Subtag} (h : IsNormScript s) (rest : List Subtag) :
    pScript (s :: rest) = (some s, rest) := by
  rw [pScript, if_pos h.1, h.2]

theorem pRegion_accepts {r : Subtag} (h : IsNormRegion r) (rest : List Subtag) :
    pRegion (r :: rest) = (some r, rest) := by
  rw [pRegion, if_pos h.1, h.2]

theorem alpha_digit_absurd {c : Char} (ha : isAsciiAlpha c = true)
    (hd : isAsciiDigit c = true) : False := by
  simp only [isAsciiAlpha, isAsciiDigit, Bool.or_eq_true, decide_eq_true_eq] at ha hd
  omega

theorem variant_not_script {q : Subtag} (h : isVariantSubtag q = true) :
    isScriptSubtag q = false := by
  rw [Bool.eq_false_iff]
  intro hs
  simp only [isVariantSubtag, Bool.or_eq_true, Bool.and_eq_true,
    decide_eq_true_eq] at h
  simp only [isScriptSubtag, Bool.and_eq_true, decide_eq_true_eq] at hs
  obtain ⟨hlen, halpha⟩ := hs
  rcases h with ⟨⟨-, -⟩, hd⟩ | ⟨⟨h5, -⟩, -⟩
  · cases q with
    | nil => simp [headIsDigit] at hd
    | cons c cs =>
      rw [headIsDigit] at hd
      rw [List.all_cons, Bool.and_eq_true] at halpha
      exact alpha_digit_absurd halpha.1 hd
  · omega

theorem region_not_script {q : Subtag} (h : isRegionSubtag q = true) :
    isScriptSubtag q = false := by
  rw [Bool.eq_false_iff]
  intro hs
  simp only [isRegionSubtag, Bool.or_eq_true, Bool.and_eq_true,
    decide_eq_true_eq] at h
  simp only [isScriptSubtag, Bool.and_eq_true, decide_eq_true_eq] at hs
  obtain ⟨hlen, -⟩ := hs
  rcases h with ⟨h2, -⟩ | ⟨h3, -⟩ <;> omega

theorem variant_not_region {q : Subtag} (h : isVariantSubtag q = true) :
    isRegionSubtag q = false := by
  rw [Bool.eq_false_iff]
  intro hr
  simp only [isVariantSubtag, Bool.or_eq_true, Bool.and_eq_true,
    decide_eq_true_eq] at h
  simp only [isRegionSubtag, Bool.or_eq_true, Bool.and_eq_true,
    decide_eq_true_eq] at hr
  rcases h with ⟨⟨h4, -⟩, -⟩ | ⟨⟨h5, -⟩, -⟩ <;>
    rcases hr with ⟨h2, -⟩ | ⟨h3, -⟩ <;> omega

theorem pScript_skip {parts : List Subtag}
    (h : ∀ q, parts.head? = some q → isScriptSubtag q = false) :
    pScript parts = (none, parts) := by
  cases parts with
  | nil => rfl
  | cons p ps => rw [pScript, if_neg (by simp [h p rfl])]

theorem pRegion_skip {parts : List Subtag}
    (h : ∀ q, parts.head? = some q → isRegionSubtag q = false) :
    pRegion parts = (none, parts) := by
  cases parts with
  | nil => rfl
  | cons p ps => rw [pRegion, if_neg (by simp [h p rfl])]

theorem pVariants_accepts : ∀ {vs acc : List Subtag},
    (∀ v ∈ vs, IsNormVariant v) → (acc ++ vs).Nodup →
    pVariants acc vs = .ok (acc ++ vs, []) := by
  intro vs
  induction vs with
  | nil =>
    intro acc _ _
    rw [pVariants, List.append_nil]
  | cons v vs ih =>
    intro acc hn hnd
    have hv := hn v (by simp)
    rw [pVariants, if_pos hv.1, hv.2]
    rw [if_neg (fun hmem =>
      (List.disjoint_of_nodup_append hnd) hmem (by simp))]
    have hnd2 : ((acc ++ [v]) ++ vs).Nodup := by
      rw [List.append_assoc]
      exact hnd
    rw [ih (fun w hw => hn w (by simp [hw])) hnd2]
    rw [List.append_assoc]
    rfl

theorem alphanum_of_digit {c : Char} (h : isAsciiDigit c = true) :
    isAsciiAlphanum c = true := by
  rw [isAsciiAlphanum, h, Bool.or_true]

theorem all_alphanum_of_all_digit {p : Subtag} (h : p.all isAsciiDigit = true) :
    p.all isAsciiAlphanum = true := by
  rw [List.all_eq_true] at h ⊢
  exact fun c hc => alphanum_of_digit (h c hc)

theorem lang_all_alphanum {l : Subtag} (h : isLanguageSubtag l = true) :
    l.all isAsciiAlphanum = true := by
  rw [isLanguageSubtag, Bool.and_eq_true] at h
  exact all_alphanum_of_all_alpha h.2

theorem script_all_alphanum {s : Subtag} (h : isScriptSubtag s = true) :
    s.all isAsciiAlphanum = true := by
  rw [isScriptSubtag, Bool.and_eq_true] at h
  exact all_alphanum_of_all_alpha h.2

theorem region_all_alphanum {r : Subtag} (h : isRegionSubtag r = true) :
    r.all isAsciiAlphanum = true := by
  rw [isRegionSubtag, Bool.or_eq_true, Bool.and_eq_true, Bool.and_eq_true] at h
  rcases h with ⟨-, h⟩ | ⟨-, h⟩
  · exact all_alphanum_of_all_alpha h
  · exact all_alphanum_of_all_digit h

theorem variant_all_alphanum {v : Subtag} (h : isVariantSubtag v = true) :
    v.all isAsciiAlphanum = true := by
  rw [isVariantSubtag, Bool.or_eq_true, Bool.and_eq_true, Bool.and_eq_true,
    Bool.and_eq_true] at h
  rcases h with ⟨⟨-, h⟩, -⟩ | ⟨-, h⟩
  · exact h
  · exact h

theorem tag_eq_mk {t : Tag} {lg sc rg : Option Subtag}
    (h1 : t.language = lg) (h2 : t.script = sc) (h3 : t.region = rg)
    (h4 : t.extensions = []) (h5 : t.private_use = none) :
    (Except.ok
      { language := lg, script := sc, region := rg, variants := t.variants,
        extensions := [], private_use := none } : Except ParseError Tag)
      = .ok t := by
  subst h1
  subst h2
  subst h3
  cases t with
  | mk tl ts tr tv te tp =>
    have h4b : te = [] := h4
    have h5b : tp = none := h5
    subst h4b
    subst h5b
    rfl

theorem parseSubtags_of_wf {t : Tag} (w : WfTag t) {lang : Subtag}
    (hl : t.language = some lang) (hext : t.extensions = [])
    (hpu : t.private_use = none) :
    parseSubtags (lang :: (t.script.toList ++ t.region.toList ++ t.variants))
      = .ok t := by
  have hVeq : pVariants [] t.variants = .ok (t.variants, []) := by
    have h := @pVariants_accepts t.variants [] w.vars (by simpa using w.varsNodup)
    simpa using h
  have hE : pExtensions [] none [] = .ok ([], none) := rfl
  have hSv : pScript t.variants = (none, t.variants) :=
    pScript_skip (fun q hq =>
      variant_not_script (w.vars q (List.mem_of_mem_head? hq)).1)
  have hRv : pRegion t.variants = (none, t.variants) :=
    pRegion_skip (fun q hq =>
      variant_not_region (w.vars q (List.mem_of_mem_head? hq)).1)
  cases hs : t.script with
  | some s =>
    cases hr : t.region with
    | some r =>
      simp only [Option.toList_some, List.singleton_append, List.cons_append,
        List.nil_append]
      have hL := pLanguage_accepts (w.lang lang hl) (s :: r :: t.variants)
      have hS := pScript_accepts (w.scr s hs) (r :: t.variants)
      have hR := pRegion_accepts (w.reg r hr) t.variants
      simp only [parseSubtags, hL, hS, hR, hVeq, hE]
      exact tag_eq_mk hl hs hr hext hpu
    | none =>
      simp only [Option.toList_some, Option.toList_none, List.singleton_append,
        List.nil_append, List.append_nil]
      have hL := pLanguage_accepts (w.lang lang hl) (s :: t.variants)
      have hS := pScript_accepts (w.scr s hs) t.variants
      simp only [parseSubtags, hL, hS, hRv, hVeq, hE]
      exact tag_eq_mk hl hs hr hext hpu
  | none =>
    cases hr : t.region with
    | some r =>
      simp only [Option.toList_some, Option.toList_none, List.singleton_append,
        List.nil_append]
      have hL := pLanguage_accepts (w.lang lang hl) (r :: t.variants)
      have hS : pScript (r :: t.variants) = (none, r :: t.variants) :=
        pScript_skip (by
          intro q hq
          simp only [List.head?_cons, Option.some.injEq] at hq
          exact hq ▸ region_not_script (w.reg r hr).1)
      have hR := pRegion_accepts (w.reg r hr) t.variants
      simp only [parseSubtags, hL, hS, hR, hVeq, hE]
      exact tag_eq_mk hl hs hr hext hpu
    | none =>
      simp only [Option.toList_none, List.nil_append]
      have hL := pLanguage_accepts (w.lang lang hl) t.variants
      simp only [parseSubtags, hL, hSv, hRv, hVeq, hE]
      exact tag_eq_mk hl hs hr hext hpu

theorem new_ok_iff {s : String} {l : Locale} :
    Locale.new s = .ok l ↔ parseTag s = .ok l.tag := by
  rw [Locale.new]
  cases hp : parseTag s with
  | error e => simp
  | ok tag =>
    simp only [Except.ok.injEq]
    constructor
    · intro h
      rw [← h]
    · intro h
      cases l with
      | mk tg =>
        simp only at h
        rw [h]

theorem wf_parts_no_dash {t : Tag} (w : WfTag t) {lang : Subtag}
    (hl : t.language = some lang) :
    ∀ q ∈ lang :: (t.script.toList ++ t.region.toList ++ t.variants),
      ∀ c ∈ q, c ≠ '-' := by
  intro q hq
  rw [List.mem_cons, List.mem_append, List.mem_append] at hq
  rcases hq with hq | (hq | hq) | hq
  · subst hq
    exact no_dash_of_all_alphanum (lang_all_alphanum (w.lang q hl).1)
  · rw [Option.mem_toList] at hq
    exact no_dash_of_all_alphanum (script_all_alphanum (w.scr q hq).1)
  · rw [Option.mem_toList] at hq
    exact no_dash_of_all_alphanum (region_all_alphanum (w.reg q hq).1)
  · exact no_dash_of_all_alphanum (variant_all_alphanum (w.vars q hq).1)

theorem parseTag_ok_wf {s : String} {t : Tag} (h : parseTag s = .ok t) :
    WfTag t := parseSubtags_wf h

theorem parseTag_base_name {l : Locale} (w : WfTag l.tag) {lang : Subtag}
    (hlang : l.tag.language = some lang) (hext : l.tag.extensions = [])
    (hpu : l.tag.private_use = none) :
    parseTag (String.mk (joinDash
      (lang :: (l.tag.script.toList ++ l.tag.region.toList ++ l.tag.variants))))
      = .ok l.tag := by
  rw [parseTag]
  rw [show (String.mk (joinDash
      (lang :: (l.tag.script.toList ++ l.tag.region.toList ++ l.tag.variants)))).data
    = joinDash (lang :: (l.tag.script.toList ++ l.tag.region.toList ++ l.tag.variants))
    from rfl]
  rw [splitDash_joinDash _ _ (wf_parts_no_dash w hlang)]
  exact parseSubtags_of_wf w hlang hext hpu

/-! ### Claim theorems -/

/-- C1: the claim says each of the six preference accessors returns the
value run of its 2-character key from the tag's `u` extension (for
`"de-u-co-phonebk-ka-shifted"`, `collation` returns `"phonebk"`), signalling
absence rather than panicking.  On the code, all six accessors are
`unimplemented!()` stubs and panic unconditionally, even though the parsed
tag really does carry `co → "phonebk"` (witnessed by the spec-modelled
keyword extractor evaluated on the same tag). -/
theorem preference_accessors_stubbed :
    (Locale.new "de-u-co-phonebk-ka-shifted").map
      (fun l => (l.calendar, l.collation, l.hour_cycle, l.case_first,
        l.numeric, l.numbering_system, ukeywordValue l.tag "co"))
      = .ok (.error .unimplemented, .error .unimplemented, .error .unimplemented,
        .error .unimplemented, .error .unimplemented, .error .unimplemented,
        some "phonebk") := rfl

/-- C2: `base_name` returns `none` exactly when the tag's language is
absent; when the language is present it returns the language, script (if
present), region (if present) and each variant in stored order, joined with
`-`, and nothing else (no extensions, no private use). -/
theorem base_name_spec (l : Locale) :
    (l.base_name = none ↔ l.tag.language = none)
    ∧ ∀ lang, l.tag.language = some lang →
      l.base_name = some (String.mk (joinDash
        (lang :: (l.tag.script.toList ++ l.tag.region.toList ++ l.tag.variants)))) :=
  ⟨base_name_none_iff l, fun lang hl => base_name_eq_joinDash l lang hl⟩

/-- C2 witness: on the locale for `de-Latn-DE-1996`, `base_name` is the full
join of the four fields. -/
theorem base_name_spec_witness :
    (Locale.mk (Tag.mk (some ['d', 'e']) (some ['L', 'a', 't', 'n'])
      (some ['D', 'E']) [['1', '9', '9', '6']] [] none)).base_name
      = some "de-Latn-DE-1996" :=
  (base_name_spec (Locale.mk (Tag.mk (some ['d', 'e'])
    (some ['L', 'a', 't', 'n']) (some ['D', 'E']) [['1', '9', '9', '6']] []
    none))).2 ['d', 'e'] rfl

/-- C3 counterexample: `"123"` contains only a region subtag (no
extensions, no private use) and parses successfully, but the parsed tag has
no language, so `base_name` returns `none` and there is no serialized
output to re-parse: the round trip as claimed fails for it. -/
theorem base_name_roundtrip_counterexample :
    (Locale.new "123").map
      (fun l => (l.tag.extensions, l.tag.private_use, l.base_name))
      = .ok (([], none, none) :
        List (Char × List Subtag) × Option (List Subtag) × Option String) := rfl

/-- C3 amended: for every string that parses successfully into a locale
with no extensions, no private use, and a present language, serializing via
`base_name` and re-parsing with `Locale.new` succeeds and returns a
structurally equal locale. -/
theorem base_name_roundtrip (s : String) (l : Locale) (lang : Subtag)
    (h : Locale.new s = .ok l) (hext : l.tag.extensions = [])
    (hpu : l.tag.private_use = none) (hlang : l.tag.language = some lang) :
    ∃ b : String, l.base_name = some b ∧ Locale.new b = .ok l := by
  have hp : parseTag s = .ok l.tag := new_ok_iff.mp h
  have w := parseTag_ok_wf hp
  exact ⟨_, base_name_eq_joinDash l lang hlang,
    new_ok_iff.mpr (parseTag_base_name w hlang hext hpu)⟩

/-- C3 witness: round-tripping the locale parsed from `de-Latn-DE-1996`. -/
theorem base_name_roundtrip_witness :
    ∃ b : String,
      (Locale.mk (Tag.mk (some ['d', 'e']) (some ['L', 'a', 't', 'n'])
        (some ['D', 'E']) [['1', '9', '9', '6']] [] none)).base_name = some b
      ∧ Locale.new b = .ok (Locale.mk (Tag.mk (some ['d', 'e'])
        (some ['L', 'a', 't', 'n']) (some ['D', 'E']) [['1', '9', '9', '6']]
        [] none)) :=
  base_name_roundtrip "de-Latn-DE-1996" _ ['d', 'e'] rfl rfl rfl rfl

/-- C4: `Locale::new` fails exactly when tag parsing fails, propagating the
parser's error kind unchanged, and otherwise returns the locale wrapping
the parsed tag; there is no partial result. -/
theorem new_propagates (s : String) :
    (∀ e, parseTag s = .error e ↔ Locale.new s = .error e)
    ∧ (∀ t, parseTag s = .ok t ↔ Locale.new s = .ok { tag := t }) := by
  constructor
  · intro e
    rw [Locale.new]
    cases hp : parseTag s with
    | error e2 => simp
    | ok tag => simp
  · intro t
    rw [Locale.new]
    cases hp : parseTag s with
    | error e2 => simp
    | ok tag => simp [Locale.mk.injEq]

/-- C5: when the platform collaborator fails, or succeeds with a string
that fails parsing, the first access to the current-locale cell returns the
sentinel undetermined locale (language absent) and surfaces no error. -/
theorem fallback_first_access (pr : PlatformResult)
    (h : pr = .err ∨ ∃ s e, pr = .ok s ∧ parseTag s = .error e) :
    (initRegistry pr).map Locale.current = .ok undLocale
      ∧ undLocale.language = none := by
  refine ⟨?_, rfl⟩
  rcases h with rfl | ⟨s, e, rfl, hpe⟩
  · rfl
  · rw [initRegistry, Locale.defaultFrom, hpe]
    rfl

/-- C5 witness: a platform string that fails parsing falls back to the
sentinel locale. -/
theorem fallback_first_access_witness :
    (initRegistry (.ok "!!")).map Locale.current = .ok undLocale
      ∧ undLocale.language = none :=
  fallback_first_access (.ok "!!")
    (Or.inr ⟨"!!", .malformedTag, rfl, rfl⟩)

/-- C6: a live handle obtained from `autoupdating_current` observes a
locale stored by a subsequent `set_current` without being re-fetched. -/
theorem live_handle_propagation (st : RegistryState) (new_locale : Locale)
    (h : Handle) (hobt : h = Locale.autoupdating_current st) :
    readHandle (Locale.set_current st new_locale) h = new_locale := by
  subst hobt
  rfl

/-- C6 witness: a handle obtained before `set_current` reads the new
locale afterwards. -/
theorem live_handle_propagation_witness :
    readHandle
      (Locale.set_current (RegistryState.mk undLocale)
        (Locale.mk (Tag.mk (some ['d', 'e']) none none [] [] none)))
      (Locale.autoupdating_current (RegistryState.mk undLocale))
      = Locale.mk (Tag.mk (some ['d', 'e']) none none [] [] none) :=
  live_handle_propagation (RegistryState.mk undLocale)
    (Locale.mk (Tag.mk (some ['d', 'e']) none none [] [] none))
    (Locale.autoupdating_current (RegistryState.mk undLocale)) rfl

/-- C7: parsing `"DE-LATN-de"` succeeds with language `de`, script `Latn`
and region `DE` (case-normalized at parse time). -/
theorem case_normalization :
    (Locale.new "DE-LATN-de").map (fun l => (l.language, l.script, l.region))
      = .ok (some "de", some "Latn", some "DE") := rfl

/-- C8: two locales are equal exactly when their underlying tags are
structurally equal, not when their unparsed input strings are: the distinct
strings `"DE-LATN-de"` and `"de-latn-DE"` produce equal locales. -/
theorem locale_eq_structural :
    (∀ l1 l2 : Locale, l1 = l2 ↔ l1.tag = l2.tag)
    ∧ ("DE-LATN-de" : String) ≠ "de-latn-DE"
    ∧ Locale.new "DE-LATN-de" = Locale.new "de-latn-DE" := by
  refine ⟨?_, by decide, rfl⟩
  intro l1 l2
  constructor
  · intro h
    rw [h]
  · intro h
    cases l1 with
    | mk t1 =>
      cases l2 with
      | mk t2 =>
        have h2 : t1 = t2 := h
        rw [h2]

/-- C9: parsing rejects a repeated variant (`"en-1996-1996"`) and a
repeated extension singleton (`"de-u-co-phonebk-u-ka-shifted"`) with a
structural error, and no successful parse ever stores duplicate variants or
duplicate singleton keys. -/
theorem duplicate_rejection :
    Locale.new "en-1996-1996" = .error .malformedTag
    ∧ Locale.new "de-u-co-phonebk-u-ka-shifted" = .error .malformedTag
    ∧ ∀ (s : String) (t : Tag), parseTag s = .ok t →
        t.variants.Nodup ∧ (t.extensions.map Prod.fst).Nodup := by
  refine ⟨rfl, rfl, ?_⟩
  intro s t h
  have w := parseTag_ok_wf h
  exact ⟨w.varsNodup, w.extsNodup⟩

/-- C9 witness: the tag parsed from `"en-1996"` has duplicate-free
variants and singleton keys. -/
theorem duplicate_rejection_witness :
    (Tag.mk (some ['e', 'n']) none none [['1', '9', '9', '6']] []
      none).variants.Nodup
    ∧ ((Tag.mk (some ['e', 'n']) none none [['1', '9', '9', '6']] []
      none).extensions.map Prod.fst).Nodup :=
  duplicate_rejection.2.2 "en-1996" _ rfl

/-- C10: the fallback parse of the literal `"und"` always succeeds, so the
`unwrap()` in `Default for Locale` never panics and `default()` returns a
locale for every platform outcome. -/
theorem default_never_panics :
    parseTag "und" = .ok undTag
    ∧ ∀ pr : PlatformResult, (Locale.defaultFrom pr).isOk = true := by
  refine ⟨rfl, ?_⟩
  intro pr
  cases pr with
  | err => rfl
  | ok s =>
    rw [Locale.defaultFrom]
    cases hp : parseTag s with
    | error e => rfl
    | ok tag => rfl

end IntlRs
